import Mathlib

/-!
Shallow embedding of the holiday-resolution pipeline of
`src/lib.rs` (module `holidays`): rule expansion, equinox resolution,
substitute-day computation and the composing pipeline.

Calendar dates (`chrono::NaiveDate`) are modelled as `Int` day numbers
counted from 1970-01-01 (day 0, a Thursday); adding `Duration::days(1)`
or `succ_opt` is `+ 1`, and the weekday of a day number `d` is
`(d + 3) % 7` with Monday = 0, matching `chrono::Weekday`.

The `while` loops of the Rust source are embedded as structural
recursion on an explicit iteration bound (`fuel`); each bound is chosen
so that it provably never runs out before the loop's own exit condition
fires, so the embedded functions compute exactly what the loops compute.
-/

/-- Weekdays, mirroring `chrono::Weekday` (Monday through Sunday). -/
inductive Weekday where
  | mon | tue | wed | thu | fri | sat | sun
deriving DecidableEq, Repr

/-- Weekday from its `num_days_from_monday` index (values ≥ 6 map to Sunday). -/
def Weekday.fromIndex : Nat → Weekday
  | 0 => .mon
  | 1 => .tue
  | 2 => .wed
  | 3 => .thu
  | 4 => .fri
  | 5 => .sat
  | _ => .sun

/-- The weekday of day number `d` (day 0 = 1970-01-01 was a Thursday). -/
def weekdayOf (d : Int) : Weekday :=
  Weekday.fromIndex ((d + 3) % 7).toNat

/-- `Holiday` of `src/lib.rs`: name, `NaiveDate` (as a day number), substitute flag. -/
structure Holiday where
  name : String
  date : Int
  substitute : Bool
deriving DecidableEq, Repr

/-- Leap-year test of the proleptic Gregorian calendar. -/
def isLeap (y : Int) : Bool :=
  (y % 4 = 0 && y % 100 != 0) || y % 400 = 0

/-- Number of days of month `m` of year `y` (0 for months outside 1..12). -/
def daysInMonth (y : Int) : Nat → Nat
  | 1 => 31
  | 2 => if isLeap y then 29 else 28
  | 3 => 31
  | 4 => 30
  | 5 => 31
  | 6 => 30
  | 7 => 31
  | 8 => 31
  | 9 => 30
  | 10 => 31
  | 11 => 30
  | 12 => 31
  | _ => 0

/-- Day number of the civil date `(y, m, d)` (days since 1970-01-01),
the standard days-from-civil computation for the proleptic Gregorian
calendar; it models `chrono`'s date construction. -/
def civilToDays (y : Int) (m d : Nat) : Int :=
  let yy : Int := if m ≤ 2 then y - 1 else y
  let era : Int := (if 0 ≤ yy then yy else yy - 399).tdiv 400
  let yoe : Int := yy - era * 400
  let mp : Int := (m : Int) + (if 2 < m then -3 else 9)
  let doy : Int := (153 * mp + 2).tdiv 5 + (d : Int) - 1
  let doe : Int := yoe * 365 + yoe.tdiv 4 - yoe.tdiv 100 + doy
  era * 146097 + doe - 719468

/-- `NaiveDate::from_ymd_opt`: `some` day number when `(y, m, d)` is a
valid calendar date, `none` otherwise. -/
def fromYmd? (y : Int) (m d : Nat) : Option Int :=
  if 1 ≤ m ∧ m ≤ 12 ∧ 1 ≤ d ∧ d ≤ daysInMonth y m then some (civilToDays y m d) else none

/-- The dates of month `m` of year `y` whose weekday is `w`, in date order:
the list `dates` collected by `nth_weekday_of_month` in `src/lib.rs`,
which walks the month day by day. -/
def weekdayDatesOfMonth (y : Int) (m : Nat) (w : Weekday) : List Int :=
  (List.range (daysInMonth y m)).filterMap (fun k =>
    let d := civilToDays y m (k + 1)
    if weekdayOf d = w then some d else none)

/-- `nth_weekday_of_month` of `src/lib.rs`: collects the month's dates with
the target weekday and indexes the collection at `n - 1`.  The Rust code
indexes with the unchecked `dates[n as usize - 1]`, which panics when
`n - 1` is out of bounds; the panic is modelled as `none` (the function
otherwise always returns `Some`). -/
def nthWeekdayOfMonth (y : Int) (m n : Nat) (w : Weekday) : Option Int :=
  (weekdayDatesOfMonth y m w).get? (n - 1)

/-- `format!("振替休日({})", name)` of `src/lib.rs`. -/
def subName (n : String) : String :=
  "振替休日(" ++ n ++ ")"

/-- The inner `while let` walk of `check_substitute_holidays`: starting at
index `i` with current run date `last`, advance while the next list element
has date exactly `last + 1`; returns the final index and final run date.
`fuel = hs.length` always suffices: every advance needs position `i + 1` to
exist, so at most `hs.length - 1` advances can ever happen. -/
def runEnd (hs : List Holiday) : Nat → Nat → Int → Nat × Int
  | 0, i, last => (i, last)
  | fuel + 1, i, last =>
    match hs.get? (i + 1) with
    | some nxt => if nxt.date = last + 1 then runEnd hs fuel (i + 1) nxt.date else (i, last)
    | none => (i, last)

/-- The collision scan of `check_substitute_holidays`: advance the candidate
substitute date while some list element occupies it.  `fuel = hs.length + 1`
always suffices: the visited candidates are pairwise distinct dates and each
advance needs a distinct element occupying the current one. -/
def findFree (hs : List Holiday) : Nat → Int → Int
  | 0, cand => cand
  | fuel + 1, cand =>
    if hs.any (fun h => h.date == cand) then findFree hs fuel (cand + 1) else cand

/-- One-for-one embedding of the `while i < holidays.len()` loop of
`check_substitute_holidays` (note the Rust loop re-reads the length of the
grown vector every iteration, so appended substitutes are themselves
scanned).  `fuel` bounds the iteration count; see `FUEL` for sufficiency. -/
def checkSubGo : Nat → Nat → List Holiday → List Holiday
  | 0, _, hs => hs
  | fuel + 1, i, hs =>
    match hs.get? i with
    | none => hs
    | some hi =>
      if weekdayOf hi.date = Weekday.sun then
        checkSubGo fuel ((runEnd hs hs.length i hi.date).1 + 1)
          (hs ++ [⟨subName ((hs.get? (runEnd hs hs.length i hi.date).1).getD hi).name,
                  findFree hs (hs.length + 1) ((runEnd hs hs.length i hi.date).2 + 1), true⟩])
      else checkSubGo fuel (i + 1) hs

/-- Iteration bound for `checkSubGo`.  The loop pushes at most `3 * n`
substitutes for an `n`-element input: every push consumes an examined
Sunday element; the examined Sundays are the input Sundays plus the pushed
Sundays; and each pushed Sunday date `s` requires the Saturday `s - 1` to
be occupied by a distinct element, so the pushed Sundays are at most the
elements with Saturday dates.  Hence the index, which grows every
iteration, reaches the final length within `4 * n` iterations;
`8 * n + 8` is a comfortable margin. -/
def FUEL (l : List Holiday) : Nat := 8 * l.length + 8

/-- `check_substitute_holidays` of `src/lib.rs` (lines 150-181). -/
def check_substitute_holidays (l : List Holiday) : List Holiday :=
  checkSubGo (FUEL l) 0 l

/-- The substitute pass as the spec's step 3 states it: identical to
`checkSubGo` except that the index walk is additionally bounded by the
fixed `bound` (taken to be the original, pre-append length), so appended
substitutes are never examined.  This definition follows the spec claim's
words and exists only to be compared against `check_substitute_holidays`. -/
def checkSubSpecGo (bound : Nat) : Nat → Nat → List Holiday → List Holiday
  | 0, _, hs => hs
  | fuel + 1, i, hs =>
    if i < bound then
      match hs.get? i with
      | none => hs
      | some hi =>
        if weekdayOf hi.date = Weekday.sun then
          checkSubSpecGo bound fuel ((runEnd hs hs.length i hi.date).1 + 1)
            (hs ++ [⟨subName ((hs.get? (runEnd hs hs.length i hi.date).1).getD hi).name,
                    findFree hs (hs.length + 1) ((runEnd hs hs.length i hi.date).2 + 1), true⟩])
        else checkSubSpecGo bound fuel (i + 1) hs
    else hs

/-- The substitute pass with the walk bounded by the original list length,
as the spec's step 3 describes it. -/
def check_substitute_holidays_spec (l : List Holiday) : List Holiday :=
  checkSubSpecGo l.length (FUEL l) 0 l

/-- A catalog rule record of `base.json` after field parsing: either a
fixed month/day rule or a floating (month, n-th, weekday) rule. -/
inductive RuleSpec where
  | fixed (month day : Nat)
  | floating (month n : Nat) (w : Weekday)
deriving DecidableEq, Repr

/-- A parsed catalog record: `name` plus its rule. -/
structure CatalogRule where
  name : String
  rule : RuleSpec
deriving DecidableEq, Repr

/-- `prepare_holidays` of `src/lib.rs` over the parsed catalog: fixed rules
go through `from_ymd_opt` + `unwrap`, floating rules through
`nth_weekday_of_month` + `unwrap`; the unwrap panics are modelled as
`none`. -/
def prepare_holidays (catalog : List CatalogRule) (year : Int) : Option (List Holiday) :=
  catalog.mapM (fun r =>
    match r.rule with
    | .fixed m d => (fromYmd? year m d).map (fun dt => (⟨r.name, dt, false⟩ : Holiday))
    | .floating m n w => (nthWeekdayOfMonth year m n w).map (fun dt => (⟨r.name, dt, false⟩ : Holiday)))

/-- A value of `equinox_base_dates.json`: the spring and fall equinox
month/day pairs of one year. -/
structure EquinoxDates where
  spring : Nat × Nat
  fall : Nat × Nat
deriving DecidableEq, Repr

/-- `get_equinox_date` of `src/lib.rs` (lines 90-149), parametric in the
table read from `equinox_base_dates.json` (the file is not under `src/`).
Years outside 2020..2050 yield the empty list; otherwise the two equinox
holidays are emitted, each followed, when it falls on Sunday, by a local
substitute dated the next day. -/
def get_equinox_date (table : Int → Option EquinoxDates) (year : Int) : List Holiday :=
  if year < 2020 ∨ year > 2050 then []
  else
    match table year with
    | none => []
    | some dates =>
      let spring := civilToDays year dates.spring.1 dates.spring.2
      let fall := civilToDays year dates.fall.1 dates.fall.2
      let springSub : List Holiday :=
        if weekdayOf spring = Weekday.sun then [⟨"春分の日(振替休日)", spring + 1, true⟩] else []
      let fallSub : List Holiday :=
        if weekdayOf fall = Weekday.sun then [⟨"秋分の日(振替休日)", fall + 1, true⟩] else []
      [⟨"春分の日", spring, false⟩, ⟨"秋分の日", fall, false⟩] ++ springSub ++ fallSub

/-- Lines 50-54 of `src/lib.rs`: `check_substitute_holidays` is applied to
the prepared (rule-expanded) list, and the equinox list is appended
afterwards with `extend`. -/
def holidaysPipeline (prepared equinox : List Holiday) : List Holiday :=
  check_substitute_holidays prepared ++ equinox

/-- The `holidays(year)` pipeline of `src/lib.rs` up to (not including) the
sorting/serialization of the Result Assembler, parametric in the parsed
catalog and equinox table whose data files are not under `src/`. -/
def resolveYear (catalog : List CatalogRule) (table : Int → Option EquinoxDates)
    (year : Int) : Option (List Holiday) :=
  (prepare_holidays catalog year).map (fun p => holidaysPipeline p (get_equinox_date table year))

/-- Concrete input for the appended-substitutes-are-scanned behaviour: a
Sunday holiday (day 3 = 1970-01-04) whose six following days are occupied
(in non-run list order), so its substitute lands on the next Sunday. -/
def exC2 : List Holiday :=
  [⟨"X", 3, false⟩, ⟨"B1", 5, false⟩, ⟨"B2", 4, false⟩, ⟨"B3", 6, false⟩,
   ⟨"B4", 7, false⟩, ⟨"B5", 8, false⟩, ⟨"B6", 9, false⟩]

/-- Concrete equinox table: year 2024 with the real equinox dates
2024-03-20 and 2024-09-22 (a Sunday). -/
def exTable : Int → Option EquinoxDates :=
  fun y => if y = 2024 then some ⟨(3, 20), (9, 22)⟩ else none

/-- A day number is Sunday exactly when its weekday residue is 6. -/
theorem weekdayOf_eq_sun_iff (d : Int) : weekdayOf d = Weekday.sun ↔ (d + 3) % 7 = 6 := by
  unfold weekdayOf
  have h0 : 0 ≤ (d + 3) % 7 := Int.emod_nonneg _ (by norm_num)
  have h7 : (d + 3) % 7 < 7 := Int.emod_lt_of_pos _ (by norm_num)
  set r : Int := (d + 3) % 7 with hr
  interval_cases r <;> simp [Weekday.fromIndex]

/-- The collision scan never returns a date before its starting candidate. -/
theorem findFree_ge (hs : List Holiday) (fuel : Nat) (cand : Int) :
    cand ≤ findFree hs fuel cand := by
  induction fuel generalizing cand with
  | zero => simp [findFree]
  | succ f ih =>
    rw [findFree]
    split
    · exact le_trans (by omega) (ih (cand + 1))
    · exact le_refl _

/-- The inner run walk only advances the index. -/
theorem runEnd_fst_ge (hs : List Holiday) (fuel i : Nat) (last : Int) :
    i ≤ (runEnd hs fuel i last).1 := by
  induction fuel generalizing i last with
  | zero => simp [runEnd]
  | succ f ih =>
    rw [runEnd]
    split
    next nxt h =>
      split
      · exact le_trans (by omega) (ih (i + 1) nxt.date)
      · simp
    next => simp

/-- The run date tracked by the inner walk never decreases. -/
theorem runEnd_snd_ge (hs : List Holiday) (fuel i : Nat) (last : Int) :
    last ≤ (runEnd hs fuel i last).2 := by
  induction fuel generalizing i last with
  | zero => simp [runEnd]
  | succ f ih =>
    rw [runEnd]
    split
    next nxt h =>
      split
      next hnd =>
        have := ih (i + 1) nxt.date
        omega
      next => simp
    next => simp

/-- Every element at a position of the detected run has date at most the
run's final date, provided the walk starts at the date of the element at
its starting index. -/
theorem runEnd_dates (hs : List Holiday) (fuel : Nat) :
    ∀ (i : Nat) (last : Int) (hi : Holiday), hs.get? i = some hi → hi.date = last →
    ∀ k hk, hs.get? k = some hk → i ≤ k → k ≤ (runEnd hs fuel i last).1 →
      hk.date ≤ (runEnd hs fuel i last).2 := by
  induction fuel with
  | zero =>
    intro i last hi hget hdate k hk hkget hik hkj
    simp only [runEnd] at hkj ⊢
    have hk2 : k = i := by omega
    subst hk2
    rw [hget] at hkget
    cases hkget
    omega
  | succ f ih =>
    intro i last hi hget hdate k hk hkget hik hkj
    rw [runEnd] at hkj ⊢
    split at hkj
    next nxt h =>
      split at hkj
      next hnd =>
        rw [if_pos hnd]
        rcases Nat.eq_or_lt_of_le hik with heq | hik'
        · subst heq
          rw [hget] at hkget
          cases hkget
          have h2 := runEnd_snd_ge hs f (i + 1) nxt.date
          omega
        · exact ih (i + 1) nxt.date nxt h rfl k hk hkget hik' hkj
      next hnd =>
        rw [if_neg hnd]
        simp only at hkj ⊢
        have hk2 : k = i := by omega
        subst hk2
        rw [hget] at hkget
        cases hkget
        omega
    next h =>
      simp only at hkj ⊢
      have hk2 : k = i := by omega
      subst hk2
      rw [hget] at hkget
      cases hkget
      omega

/-- The substitute pass only appends: its output is the input followed by a
tail of elements all flagged as substitutes. -/
theorem checkSubGo_append (fuel : Nat) :
    ∀ i hs, ∃ t, checkSubGo fuel i hs = hs ++ t ∧ ∀ h ∈ t, h.substitute = true := by
  induction fuel with
  | zero =>
    intro i hs
    exact ⟨[], by simp [checkSubGo]⟩
  | succ f ih =>
    intro i hs
    rw [checkSubGo]
    split
    next => exact ⟨[], by simp⟩
    next hi hget =>
      split
      next hsun =>
        obtain ⟨t, ht, hall⟩ := ih ((runEnd hs hs.length i hi.date).1 + 1)
          (hs ++ [⟨subName ((hs.get? (runEnd hs hs.length i hi.date).1).getD hi).name,
                  findFree hs (hs.length + 1) ((runEnd hs hs.length i hi.date).2 + 1), true⟩])
        refine ⟨⟨subName ((hs.get? (runEnd hs hs.length i hi.date).1).getD hi).name,
                  findFree hs (hs.length + 1) ((runEnd hs hs.length i hi.date).2 + 1), true⟩ :: t,
                ?_, ?_⟩
        · rw [ht]
          simp
        · intro h hm
          rcases List.mem_cons.mp hm with rfl | hm
          · rfl
          · exact hall h hm
      next => exact ih (i + 1) hs

/-- Name invariant of the substitute pass: for a predicate closed under
stripping the substitute wrapper, no appended name satisfies it when no
input name does. -/
theorem checkSubGo_names (P : String → Prop) (hP : ∀ n, P (subName n) → P n) (fuel : Nat) :
    ∀ i hs, (∀ h ∈ hs, ¬ P h.name) → ∀ h ∈ checkSubGo fuel i hs, ¬ P h.name := by
  induction fuel with
  | zero =>
    intro i hs hhs
    simpa [checkSubGo] using hhs
  | succ f ih =>
    intro i hs hhs
    rw [checkSubGo]
    split
    next => exact hhs
    next hi hget =>
      split
      next hsun =>
        apply ih
        intro h hm
        rcases List.mem_append.mp hm with hm | hm
        · exact hhs h hm
        · rcases List.mem_singleton.mp hm with rfl
          intro hPs
          simp only at hPs
          have hPn := hP _ hPs
          cases hj : hs.get? ((runEnd hs hs.length i hi.date).1) with
          | none =>
            rw [hj] at hPn
            simp only [Option.getD_none] at hPn
            exact hhs hi (List.get?_mem hget) hPn
          | some hjv =>
            rw [hj] at hPn
            simp only [Option.getD_some] at hPn
            exact hhs hjv (List.get?_mem hj) hPn
      next => exact ih (i + 1) hs hhs

/-- C10: `check_substitute_holidays` only appends: for every input list,
the first `len(input)` elements of the result are the input elements
unchanged (same name, date and substitute flag, in the same order), and
every appended element has its substitute flag set to `true`. -/
theorem C10_engine_only_appends (l : List Holiday) :
    (check_substitute_holidays l).take l.length = l ∧
    ∀ h ∈ (check_substitute_holidays l).drop l.length, h.substitute = true := by
  obtain ⟨t, ht, hall⟩ := checkSubGo_append (FUEL l) 0 l
  rw [check_substitute_holidays, ht]
  constructor
  · exact List.take_left l t
  · intro h hm
    rw [List.drop_left] at hm
    exact hall h hm

/-- C1 counterexample: at the empty catalog and the real 2024 equinox
table (fall equinox 2024-09-22, a Sunday), the pipeline's output differs
from what running the Substitute-Day Engine over the union of the
expander's and resolver's outputs would produce, so the engine is not
passed that union. -/
theorem C1_counterexample :
    resolveYear [] exTable 2024 ≠
      some (check_substitute_holidays ([] ++ get_equinox_date exTable 2024)) := by
  decide

/-- C1 amended: the Substitute-Day Engine runs only over the Rule
Expander's output; the Equinox Resolver's output is appended afterwards
and is not examined by the engine — the engine-produced prefix of the
pipeline output does not depend on the equinox table, and the equinox
entries appear verbatim as the suffix. -/
theorem C1_amended (prepared : List Holiday) (t t' : Int → Option EquinoxDates) (y : Int) :
    (holidaysPipeline prepared (get_equinox_date t y)).take
        (check_substitute_holidays prepared).length =
      (holidaysPipeline prepared (get_equinox_date t' y)).take
        (check_substitute_holidays prepared).length ∧
    (holidaysPipeline prepared (get_equinox_date t y)).drop
        (check_substitute_holidays prepared).length = get_equinox_date t y := by
  unfold holidaysPipeline
  refine ⟨?_, List.drop_left _ _⟩
  rw [List.take_left, List.take_left]

/-- C2 counterexample: on `exC2` the engine's output differs from the
spec-described pass whose index walk covers exactly the original
(pre-append) positions, so the walk does not cover exactly those
positions. -/
theorem C2_counterexample :
    check_substitute_holidays exC2 ≠ check_substitute_holidays_spec exC2 := by
  decide

/-- C2 amended: the index walk covers the positions of the current,
growing list, so substitute holidays appended during the pass are
themselves examined by the rest-day check; at `exC2` the appended
substitute lands on a Sunday, is examined, and triggers a second,
chained substitute. -/
theorem C2_amended :
    check_substitute_holidays exC2 =
      exC2 ++ [⟨subName "X", 10, true⟩, ⟨subName (subName "X"), 11, true⟩] := by
  decide

/-- C5 counterexample: a two-element run (Sunday 1970-01-04 plus the next
day) does not produce a substitute named after the run's first holiday
`"A"`, whose substitute name the claim predicts. -/
theorem C5_counterexample :
    check_substitute_holidays [⟨"A", 3, false⟩, ⟨"B", 4, false⟩] ≠
      [⟨"A", 3, false⟩, ⟨"B", 4, false⟩, ⟨subName "A", 5, true⟩] := by
  decide

/-- C5 amended: the inner run walk advances `i` before the append, so the
appended substitute is named after the holiday at the END of the detected
run (here the second element), not after the first holiday of the run. -/
theorem C5_amended (n1 n2 : String) (b1 b2 : Bool) (d : Int)
    (h : weekdayOf d = Weekday.sun) :
    check_substitute_holidays [⟨n1, d, b1⟩, ⟨n2, d + 1, b2⟩] =
      [⟨n1, d, b1⟩, ⟨n2, d + 1, b2⟩, ⟨subName n2, d + 2, true⟩] := by
  have hd : (d + 3) % 7 = 6 := (weekdayOf_eq_sun_iff d).mp h
  have hrun : runEnd [⟨n1, d, b1⟩, ⟨n2, d + 1, b2⟩] 2 0 d = (1, d + 1) := by
    rw [show (2 : Nat) = 1 + 1 from rfl]
    rw [runEnd]
    simp only [List.get?_cons_succ, List.get?_cons_zero, if_pos rfl]
    rw [runEnd]
    simp
  have hany : ([⟨n1, d, b1⟩, ⟨n2, d + 1, b2⟩] : List Holiday).any
      (fun x => x.date == d + 1 + 1) = false := by
    simp only [List.any_cons, List.any_nil, Bool.or_eq_false_iff, beq_eq_false_iff_ne, ne_eq,
      and_true]
    omega
  have hfree : findFree [⟨n1, d, b1⟩, ⟨n2, d + 1, b2⟩] 3 (d + 1 + 1) = d + 2 := by
    rw [findFree]
    simp only [hany, Bool.false_eq_true, if_false]
    ring
  have hw2 : ¬ weekdayOf (d + 2) = Weekday.sun := by
    rw [weekdayOf_eq_sun_iff]; omega
  show checkSubGo (8 * 2 + 8) 0 _ = _
  rw [show 8 * 2 + 8 = 23 + 1 from by norm_num]
  rw [checkSubGo]
  simp only [List.get?_cons_zero]
  rw [if_pos h]
  simp only [List.length_cons, List.length_nil]
  norm_num
  rw [hrun]
  simp only [List.get?_cons_succ, List.get?_cons_zero, Option.getD_some]
  rw [hfree]
  rw [show (23 : Nat) = 22 + 1 from by norm_num]
  rw [checkSubGo]
  simp only [List.cons_append, List.nil_append, List.get?_cons_succ, List.get?_cons_zero]
  rw [if_neg hw2]
  rw [show (22 : Nat) = 21 + 1 from by norm_num]
  rw [checkSubGo]
  simp

/-- C5 witness: the amended statement at the concrete Sunday day 3. -/
theorem C5_witness :
    weekdayOf (3 : Int) = Weekday.sun ∧
    check_substitute_holidays [⟨"P", 3, false⟩, ⟨"Q", 4, false⟩] =
      [⟨"P", 3, false⟩, ⟨"Q", 4, false⟩, ⟨subName "Q", 5, true⟩] :=
  ⟨by decide, C5_amended "P" "Q" false false 3 (by decide)⟩

/-- C6: a three-element list of holidays adjacent in both list position and
calendar date whose first falls on Sunday yields exactly one appended
substitute, dated the day after the third holiday. -/
theorem C6_single_substitute_for_run (n1 n2 n3 : String) (b1 b2 b3 : Bool) (d : Int)
    (h : weekdayOf d = Weekday.sun) :
    check_substitute_holidays [⟨n1, d, b1⟩, ⟨n2, d + 1, b2⟩, ⟨n3, d + 2, b3⟩] =
      [⟨n1, d, b1⟩, ⟨n2, d + 1, b2⟩, ⟨n3, d + 2, b3⟩, ⟨subName n3, d + 3, true⟩] := by
  have hd : (d + 3) % 7 = 6 := (weekdayOf_eq_sun_iff d).mp h
  have hrun : runEnd [⟨n1, d, b1⟩, ⟨n2, d + 1, b2⟩, ⟨n3, d + 2, b3⟩] 3 0 d = (2, d + 2) := by
    rw [show (3 : Nat) = 2 + 1 from rfl]
    rw [runEnd]
    simp only [List.get?_cons_succ, List.get?_cons_zero, if_pos rfl]
    rw [runEnd]
    simp only [List.get?_cons_succ, List.get?_cons_zero]
    rw [if_pos (show (d + 2 : Int) = d + 1 + 1 by ring)]
    rw [runEnd]
    simp
  have hany : ([⟨n1, d, b1⟩, ⟨n2, d + 1, b2⟩, ⟨n3, d + 2, b3⟩] : List Holiday).any
      (fun x => x.date == d + 2 + 1) = false := by
    simp only [List.any_cons, List.any_nil, Bool.or_eq_false_iff, beq_eq_false_iff_ne, ne_eq,
      and_true]
    omega
  have hfree : findFree [⟨n1, d, b1⟩, ⟨n2, d + 1, b2⟩, ⟨n3, d + 2, b3⟩] 4 (d + 2 + 1) = d + 3 := by
    rw [findFree]
    simp only [hany, Bool.false_eq_true, if_false]
    ring
  have hw3 : ¬ weekdayOf (d + 3) = Weekday.sun := by
    rw [weekdayOf_eq_sun_iff]; omega
  show checkSubGo (8 * 3 + 8) 0 _ = _
  rw [show 8 * 3 + 8 = 31 + 1 from by norm_num]
  rw [checkSubGo]
  simp only [List.get?_cons_zero]
  rw [if_pos h]
  simp only [List.length_cons, List.length_nil]
  norm_num
  rw [hrun]
  simp only [List.get?_cons_succ, List.get?_cons_zero, Option.getD_some]
  rw [hfree]
  rw [show (31 : Nat) = 30 + 1 from by norm_num]
  rw [checkSubGo]
  simp only [List.cons_append, List.nil_append, List.get?_cons_succ, List.get?_cons_zero]
  rw [if_neg hw3]
  rw [show (30 : Nat) = 29 + 1 from by norm_num]
  rw [checkSubGo]
  simp

/-- C6 witness: the statement at the concrete Sunday day 3. -/
theorem C6_witness :
    weekdayOf (3 : Int) = Weekday.sun ∧
    check_substitute_holidays [⟨"E", 3, false⟩, ⟨"F", 4, false⟩, ⟨"G", 5, false⟩] =
      [⟨"E", 3, false⟩, ⟨"F", 4, false⟩, ⟨"G", 5, false⟩, ⟨subName "G", 6, true⟩] :=
  ⟨by decide, C6_single_substitute_for_run "E" "F" "G" false false false 3 (by decide)⟩

/-- C4: February 2024 has four Mondays; asking for the fifth makes the
unchecked indexing `dates[n - 1]` go out of bounds, so the call aborts
(`none`, the modelled panic) rather than producing any value — rule
expansion also aborts; no structured `OccurrenceNotFound` error value
exists anywhere in the code. -/
theorem C4_fifth_monday_panics :
    (weekdayDatesOfMonth 2024 2 .mon).length = 4 ∧
    nthWeekdayOfMonth 2024 2 5 .mon = none ∧
    prepare_holidays [⟨"X", .floating 2 5 .mon⟩] 2024 = none := by
  decide

/-- C9: when month `m` of year `y` has at least `n ≥ 1` dates with the
target weekday, the index `n - 1` into the collected occurrence list is in
bounds and `nth_weekday_of_month` returns `some` of the n-th occurrence;
it never returns `none` under this precondition. -/
theorem C9_nth_weekday_in_bounds (y : Int) (m n : Nat) (w : Weekday)
    (h1 : 1 ≤ n) (h2 : n ≤ (weekdayDatesOfMonth y m w).length) :
    ∃ d, nthWeekdayOfMonth y m n w = some d ∧
      (weekdayDatesOfMonth y m w).get? (n - 1) = some d := by
  have hlt : n - 1 < (weekdayDatesOfMonth y m w).length := by omega
  refine ⟨(weekdayDatesOfMonth y m w).get ⟨n - 1, hlt⟩, ?_, ?_⟩ <;>
    simp [nthWeekdayOfMonth, List.get?_eq_get hlt]

/-- C9 witness: the fourth Monday of February 2024 exists and is returned. -/
theorem C9_witness :
    (1 ≤ 4 ∧ 4 ≤ (weekdayDatesOfMonth 2024 2 .mon).length) ∧
    ∃ d, nthWeekdayOfMonth 2024 2 4 .mon = some d ∧
      (weekdayDatesOfMonth 2024 2 .mon).get? (4 - 1) = some d :=
  ⟨⟨by decide, by decide⟩, C9_nth_weekday_in_bounds 2024 2 4 .mon (by decide) (by decide)⟩

/-- C7: substitutes are dated strictly after their trigger.  Engine part:
at any position `i` holding a Sunday holiday, the date the engine appends
(`findFree` past the end of the detected run) is strictly later than the
date of every holiday of that run.  Equinox part: every substitute the
Equinox Resolver emits is dated exactly one day after — hence strictly
later than — the non-substitute equinox holiday it is named after. -/
theorem C7_substitute_after_trigger :
    (∀ (hs : List Holiday) (i : Nat) (hi : Holiday), hs.get? i = some hi →
      weekdayOf hi.date = Weekday.sun →
      ∀ k hk, hs.get? k = some hk → i ≤ k → k ≤ (runEnd hs hs.length i hi.date).1 →
        hk.date < findFree hs (hs.length + 1) ((runEnd hs hs.length i hi.date).2 + 1)) ∧
    (∀ (table : Int → Option EquinoxDates) (year : Int) (h : Holiday),
      h ∈ get_equinox_date table year → h.substitute = true →
      ∃ h0, h0 ∈ get_equinox_date table year ∧ h0.substitute = false ∧
        h.name = h0.name ++ "(振替休日)" ∧ h.date = h0.date + 1) := by
  constructor
  · intro hs i hi hget hsun k hk hkget hik hkj
    have hd := runEnd_dates hs hs.length i hi.date hi hget rfl k hk hkget hik hkj
    have hf := findFree_ge hs (hs.length + 1) ((runEnd hs hs.length i hi.date).2 + 1)
    omega
  · intro table year h hmem hsub
    by_cases hyear : year < 2020 ∨ year > 2050
    · unfold get_equinox_date at hmem
      rw [if_pos hyear] at hmem
      simp at hmem
    · cases htab : table year with
      | none =>
        unfold get_equinox_date at hmem
        rw [if_neg hyear, htab] at hmem
        simp at hmem
      | some dates =>
        have hval : get_equinox_date table year =
            [⟨"春分の日", civilToDays year dates.spring.1 dates.spring.2, false⟩,
             ⟨"秋分の日", civilToDays year dates.fall.1 dates.fall.2, false⟩] ++
            (if weekdayOf (civilToDays year dates.spring.1 dates.spring.2) = Weekday.sun then
              [⟨"春分の日(振替休日)", civilToDays year dates.spring.1 dates.spring.2 + 1, true⟩]
             else []) ++
            (if weekdayOf (civilToDays year dates.fall.1 dates.fall.2) = Weekday.sun then
              [⟨"秋分の日(振替休日)", civilToDays year dates.fall.1 dates.fall.2 + 1, true⟩]
             else []) := by
          unfold get_equinox_date
          rw [if_neg hyear, htab]
        rw [hval] at hmem ⊢
        by_cases hsp : weekdayOf (civilToDays year dates.spring.1 dates.spring.2) = Weekday.sun
        · by_cases hfa : weekdayOf (civilToDays year dates.fall.1 dates.fall.2) = Weekday.sun
          · rw [if_pos hsp, if_pos hfa] at hmem ⊢
            simp only [List.cons_append, List.nil_append, List.mem_cons, List.not_mem_nil,
              or_false] at hmem
            rcases hmem with rfl | rfl | rfl | rfl
            · exact absurd hsub (by simp)
            · exact absurd hsub (by simp)
            · exact ⟨⟨"春分の日", civilToDays year dates.spring.1 dates.spring.2, false⟩,
                by simp, rfl, rfl, rfl⟩
            · exact ⟨⟨"秋分の日", civilToDays year dates.fall.1 dates.fall.2, false⟩,
                by simp, rfl, rfl, rfl⟩
          · rw [if_pos hsp, if_neg hfa] at hmem ⊢
            simp only [List.append_nil, List.cons_append, List.nil_append, List.mem_cons,
              List.not_mem_nil, or_false] at hmem
            rcases hmem with rfl | rfl | rfl
            · exact absurd hsub (by simp)
            · exact absurd hsub (by simp)
            · exact ⟨⟨"春分の日", civilToDays year dates.spring.1 dates.spring.2, false⟩,
                by simp, rfl, rfl, rfl⟩
        · by_cases hfa : weekdayOf (civilToDays year dates.fall.1 dates.fall.2) = Weekday.sun
          · rw [if_neg hsp, if_pos hfa] at hmem ⊢
            simp only [List.append_nil, List.cons_append, List.nil_append, List.mem_cons,
              List.not_mem_nil, or_false] at hmem
            rcases hmem with rfl | rfl | rfl
            · exact absurd hsub (by simp)
            · exact absurd hsub (by simp)
            · exact ⟨⟨"秋分の日", civilToDays year dates.fall.1 dates.fall.2, false⟩,
                by simp, rfl, rfl, rfl⟩
          · rw [if_neg hsp, if_neg hfa] at hmem
            simp only [List.append_nil, List.cons_append, List.nil_append, List.mem_cons,
              List.not_mem_nil, or_false] at hmem
            rcases hmem with rfl | rfl
            · exact absurd hsub (by simp)
            · exact absurd hsub (by simp)

/-- C7 witness: the engine part at a single Sunday holiday (day 3, whose
substitute date 4 is strictly later), and the equinox part at the 2024
fall-equinox substitute (2024-09-23, day 19989, one day after day 19988). -/
theorem C7_witness :
    (([⟨"A", 3, false⟩] : List Holiday).get? 0 = some ⟨"A", 3, false⟩ ∧
     weekdayOf (3 : Int) = Weekday.sun ∧
     (3 : Int) < findFree [⟨"A", 3, false⟩] 2 ((runEnd [⟨"A", 3, false⟩] 1 0 3).2 + 1)) ∧
    ((⟨"秋分の日(振替休日)", 19989, true⟩ : Holiday) ∈ get_equinox_date exTable 2024 ∧
     ∃ h0, h0 ∈ get_equinox_date exTable 2024 ∧ h0.substitute = false ∧
       ("秋分の日(振替休日)" : String) = h0.name ++ "(振替休日)" ∧ (19989 : Int) = h0.date + 1) := by
  constructor
  · refine ⟨rfl, by decide, ?_⟩
    exact C7_substitute_after_trigger.1 [⟨"A", 3, false⟩] 0 ⟨"A", 3, false⟩ rfl (by decide)
      0 ⟨"A", 3, false⟩ rfl (by decide) (by decide)
  · refine ⟨by decide, ?_⟩
    exact C7_substitute_after_trigger.2 exTable 2024 ⟨"秋分の日(振替休日)", 19989, true⟩
      (by decide) rfl

/-- C8: for years outside the table's 2020..2050 range the Equinox
Resolver returns the empty list (no error), and the final pipeline list
contains no name satisfying an equinox-marker predicate, provided (as the
spec guarantees for the catalog) no rule-expanded name satisfies it and
the predicate is closed under stripping the substitute wrapper. -/
theorem C8_outside_range (table : Int → Option EquinoxDates) (year : Int)
    (hyear : year < 2020 ∨ year > 2050)
    (prepared : List Holiday) (P : String → Prop)
    (hP : ∀ n, P (subName n) → P n)
    (hprep : ∀ h ∈ prepared, ¬ P h.name) :
    get_equinox_date table year = [] ∧
    ∀ h ∈ holidaysPipeline prepared (get_equinox_date table year), ¬ P h.name := by
  have hempty : get_equinox_date table year = [] := by
    unfold get_equinox_date
    rw [if_pos hyear]
  refine ⟨hempty, ?_⟩
  rw [hempty]
  unfold holidaysPipeline check_substitute_holidays
  simp only [List.append_nil]
  exact checkSubGo_names P hP (FUEL prepared) 0 prepared hprep

/-- C8 witness: year 2019 with a catalog whose single expanded holiday
(a Sunday, so the engine appends a wrapped substitute) carries no equinox
marker; no name of the final list is an equinox marker. -/
theorem C8_witness :
    ((2019 : Int) < 2020 ∨ (2019 : Int) > 2050) ∧
    (∀ n, (subName n = "春分の日" ∨ subName n = "秋分の日") →
      (n = "春分の日" ∨ n = "秋分の日")) ∧
    (get_equinox_date exTable 2019 = [] ∧
     ∀ h ∈ holidaysPipeline [⟨"A", 3, false⟩] (get_equinox_date exTable 2019),
       ¬ (h.name = "春分の日" ∨ h.name = "秋分の日")) := by
  have hP : ∀ n, (subName n = "春分の日" ∨ subName n = "秋分の日") →
      (n = "春分の日" ∨ n = "秋分の日") := by
    intro n hn
    exfalso
    have h1 : ("振替休日(" : String).length = 5 := rfl
    have h2 : (")" : String).length = 1 := rfl
    have h3 : ("春分の日" : String).length = 4 := rfl
    have h4 : ("秋分の日" : String).length = 4 := rfl
    rcases hn with hn | hn <;>
      (have hl := congrArg String.length hn
       simp only [subName, String.length_append] at hl
       omega)
  exact ⟨by decide, hP,
    C8_outside_range exTable 2019 (by decide) [⟨"A", 3, false⟩]
      (fun nm => nm = "春分の日" ∨ nm = "秋分の日") hP (by decide)⟩
